import Mathlib

/-!
Shallow embedding of the go-workspace library (dir.go / workspace.go).
Go strings are modelled as lists of characters; Go maps as association
lists with overwrite-on-insert; platform calls (os.UserCacheDir, os.Getwd,
os.Stat, os.TempDir, ...) are passed in as explicit parameters.  Unix path
semantics are used throughout (os.PathSeparator is '/', runtime.GOOS is
not "windows"), matching the library's primary build target.
-/

/-- Go strings, modelled as lists of characters. -/
abbrev Str := List Char

/-- Converts a Lean string literal to the Go string model. -/
def str (s : String) : Str := s.data

/-- os.PathSeparator on Unix. -/
def sep : Char := '/'

/-- strings.Split(s, "/"): splits on the path separator, keeping empty parts. -/
def splitSep : Str → List Str
  | [] => [[]]
  | c :: cs =>
    match splitSep cs with
    | [] => [[c]]
    | g :: gs => if c = sep then [] :: g :: gs else (c :: g) :: gs

/-- strings.Join(ps, "/"): concatenates parts with the path separator. -/
def joinSep : List Str → Str
  | [] => []
  | [e] => e
  | e :: l => e ++ sep :: joinSep l

/-- filepath.IsAbs for Unix: the path starts with a separator. -/
def isAbs : Str → Bool
  | [] => false
  | c :: _ => c == sep

/-- One step of filepath.Clean's element processing: pushes a path element
onto the (reversed) output stack, resolving ".." elements against it. -/
def cleanPush (rooted : Bool) (stk : List Str) (e : Str) : List Str :=
  if e = str ".." then
    match stk with
    | [] => if rooted then [] else [e]
    | t :: rest => if t = str ".." then e :: t :: rest else rest
  else e :: stk

/-- filepath.Clean for Unix paths (lexical normalization). -/
def clean (s : Str) : Str :=
  if s = [] then str "."
  else
    let rooted := isAbs s
    let elems := (splitSep s).filter (fun e => decide (e ≠ [] ∧ e ≠ str "."))
    let out := (elems.foldl (cleanPush rooted) []).reverse
    if rooted then sep :: joinSep out
    else if out = [] then str "." else joinSep out

/-- filepath.Join(a, b) for Unix: concatenation of the non-empty parts with
a separator, then Clean; empty when both parts are empty. -/
def join2 (a b : Str) : Str :=
  if a = [] then (if b = [] then [] else clean b)
  else clean (a ++ sep :: b)

/-- strings.TrimSuffix(s, "/"): removes one trailing separator if present. -/
def trimSep (s : Str) : Str :=
  if s.getLast? = some sep then s.dropLast else s

/-- Core loop of strings.Replace with a nonempty pattern: scans left to
right, replacing non-overlapping occurrences; fuel bounds the recursion
and is always at least the length of the scanned string. -/
def replaceCore (old new : Str) : Nat → Str → Str
  | _, [] => []
  | 0, s => s
  | fuel + 1, c :: cs =>
    if old.isPrefixOf (c :: cs) then new ++ replaceCore old new fuel ((c :: cs).drop old.length)
    else c :: replaceCore old new fuel cs

/-- strings.ReplaceAll.  An empty pattern inserts the replacement before
and after every character, per Go's strings.Replace. -/
def replaceAll (s old new : Str) : Str :=
  if old = [] then new ++ s.flatMap (fun c => c :: new)
  else replaceCore old new s.length s

/-- strings.Contains: whether pat occurs as a contiguous substring of s. -/
def hasSub : Str → Str → Bool
  | [], pat => pat.isEmpty
  | c :: cs, pat => pat.isPrefixOf (c :: cs) || hasSub cs pat

/-- Go map write m[k] = v on the association-list model of a map:
overwrites in place if the key exists, otherwise appends. -/
def mapPut : List (Str × Str) → Str → Str → List (Str × Str)
  | [], k, v => [(k, v)]
  | (k', v') :: rest, k, v =>
    if k' = k then (k, v) :: rest else (k', v') :: mapPut rest k v

/-- Go map read m[k] distinguishing a missing key. -/
def mapGet? : List (Str × Str) → Str → Option Str
  | [], _ => none
  | (k, v) :: rest, q => if k = q then some v else mapGet? rest q

/-- Go map read m[k] with the zero value "" for a missing key. -/
def mapGet (m : List (Str × Str)) (k : Str) : Str := (mapGet? m k).getD []

/-- Splits a cleaned path into its elements for filepath.Rel's
element-by-element comparison (leading separator removed). -/
def relSegs (s : Str) : List Str :=
  let t := if isAbs s then s.drop 1 else s
  (splitSep t).filter (fun e => !e.isEmpty)

/-- Drops the longest common leading run of elements from both lists. -/
def dropCommon : List Str → List Str → List Str × List Str
  | b :: bs, t :: ts => if b = t then dropCommon bs ts else (b :: bs, t :: ts)
  | bs, ts => (bs, ts)

/-- filepath.Rel(basepath, targpath) for Unix; none models the error case. -/
def rel (basepath targpath : Str) : Option Str :=
  let base := clean basepath
  let targ := clean targpath
  if targ = base then some (str ".")
  else
    let base := if base = str "." then [] else base
    if isAbs base ≠ isAbs targ then none
    else
      let (brem, trem) := dropCommon (relSegs base) (relSegs targ)
      if brem.head? = some (str "..") then none
      else some (joinSep (List.replicate brem.length (str "..") ++ trem))

/-- AbsPath (workspace.go / dir.go): expands a leading '~' to the home
directory (or leaves '~' when the lookup failed, modelled by none), then
returns the path cleaned if absolute, else joined with base and cleaned. -/
def absPath (home : Option Str) (base p : Str) : Str :=
  let p := if (str "~").isPrefixOf p then (home.getD (str "~")) ++ p.drop 1 else p
  if isAbs p then clean p else clean (join2 base p)

/-- AppDirs.MakeAbsolute (workspace.go): splits the input on the platform
separator, replaces each segment whose forward-map value is nonempty,
folds the segments back together with filepath.Join, restores a leading
separator for absolute inputs whose expansion came out relative, and
routes the result through AbsPath. -/
def makeAbsolute (kw : List (Str × Str)) (home : Option Str) (basePath input : Str) : Str :=
  let result := (splitSep input).foldl
    (fun result segment =>
      let s := mapGet kw segment
      if s ≠ [] then join2 result s else join2 result segment) []
  let result := if isAbs input ∧ ¬ isAbs result then sep :: result else result
  absPath home basePath result

/-- Inserts an item into a list sorted by descending key length, keeping
equal-length items in their original relative order. -/
def insertDesc (x : Str × Str) : List (Str × Str) → List (Str × Str)
  | [] => [x]
  | y :: ys => if x.1.length < y.1.length then y :: insertDesc x ys else x :: y :: ys

/-- sort.SliceStable with less i j = (len key i > len key j): stable sort
by descending key length. -/
def sortDesc (l : List (Str × Str)) : List (Str × Str) := l.foldr insertDesc []

/-- AppDirs.Parameterize (workspace.go).  The source's `make([]item, n)`
followed by `append` leaves n zero items (empty key and value) in front of
the real pair list before sorting; they are modelled for fidelity. -/
def parameterize (rev : List (Str × Str)) (basePath input : Str) : Str :=
  let ordered := sortDesc (List.replicate rev.length ([], []) ++ rev)
  let s := ordered.foldl (fun s o => replaceAll s o.1 o.2) input
  let s := trimSep s
  if isAbs s then s
  else
    match rel basePath s with
    | some r => r
    | none => clean s

/-- Dir (workspace.go): one managed application directory.  DirType is a
Go int; Cache = 1, Config = 2, Home = 3, Workspace = 4, Temp = 5. -/
structure Dir where
  dirType : Int
  path : Str
  aliases : List Str
deriving DecidableEq

/-- AppDirs (workspace.go): the registry of up to five directories plus
the derived forward (alias to path) and reverse (path to first alias)
keyword maps. -/
structure AppDirs where
  cache : Option Dir
  config : Option Dir
  home : Option Dir
  temp : Option Dir
  workspace : Option Dir
  keywords : List (Str × Str)
  keywordsReverse : List (Str × Str)
deriving DecidableEq

/-- defaultCache (workspace.go). -/
def defaultCache : List Str := [str "$CACHE", str "$\x7bCACHE\x7d"]

/-- defaultConfig (workspace.go). -/
def defaultConfig : List Str := []

/-- defaultHome (workspace.go), after the package init() that appends "~"
on every platform other than Windows. -/
def defaultHomeFor (windows : Bool) : List Str :=
  [str "$HOME", str "$\x7bHOME\x7d"] ++ (if windows then [] else [str "~"])

/-- defaultTemp (workspace.go). -/
def defaultTemp : List Str :=
  [str "$TEMP", str "$\x7bTEMP\x7d", str "$TMP", str "$\x7bTMP\x7d",
   str "$TMPDIR", str "$\x7bTMPDIR\x7d", str "$TEMPDIR", str "$\x7bTEMPDIR\x7d"]

/-- defaultWorkspace (workspace.go). -/
def defaultWorkspace : List Str :=
  [str "$workspaceRoot", str "$\x7bworkspaceRoot\x7d", str "$PWD", str "$\x7bPWD\x7d"]

/-- The per-kind default alias table consulted by NewDir (dir.go) and
Assign (workspace.go). -/
def defaultAliasesFor (k : Int) (windows : Bool) : List Str :=
  if k = 1 then defaultCache
  else if k = 2 then defaultConfig
  else if k = 3 then defaultHomeFor windows
  else if k = 4 then defaultWorkspace
  else if k = 5 then defaultTemp
  else []

/-- The loop body of initKeywords / Assign (workspace.go): for i, alias
range d.Aliases writes keywords[alias] = path and, at index 0 only,
keywordsReverse[path] = alias. -/
def aliasLoop (path : Str) : List (Str × Str) → List (Str × Str) → Nat → List Str →
    List (Str × Str) × List (Str × Str)
  | kw, rev, _, [] => (kw, rev)
  | kw, rev, i, al :: rest =>
    aliasLoop path (mapPut kw al path) (if i = 0 then mapPut rev path al else rev) (i + 1) rest

/-- The non-nil descriptors in the fixed field order used by initKeywords:
cache, config, home, temp, workspace. -/
def registeredDirs (a : AppDirs) : List Dir :=
  [a.cache, a.config, a.home, a.temp, a.workspace].filterMap id

/-- Replaces both keyword maps of a registry. -/
def setMaps (a : AppDirs) (kw rev : List (Str × Str)) : AppDirs :=
  ⟨a.cache, a.config, a.home, a.temp, a.workspace, kw, rev⟩

/-- initKeywords (workspace.go): rebuilds both keyword maps from scratch
from the registered descriptors in the fixed field order. -/
def initKeywords (a : AppDirs) : AppDirs :=
  let maps := (registeredDirs a).foldl
    (fun m d => aliasLoop d.path m.1 m.2 0 d.aliases) ([], [])
  setMaps a maps.1 maps.2

/-- Stores a descriptor into the slot selected by its kind; an invalid
kind (no switch case in the source) stores nothing. -/
def storeSlot (a : AppDirs) (d : Dir) : AppDirs :=
  if d.dirType = 1 then ⟨some d, a.config, a.home, a.temp, a.workspace, a.keywords, a.keywordsReverse⟩
  else if d.dirType = 2 then ⟨a.cache, some d, a.home, a.temp, a.workspace, a.keywords, a.keywordsReverse⟩
  else if d.dirType = 3 then ⟨a.cache, a.config, some d, a.temp, a.workspace, a.keywords, a.keywordsReverse⟩
  else if d.dirType = 5 then ⟨a.cache, a.config, a.home, some d, a.workspace, a.keywords, a.keywordsReverse⟩
  else if d.dirType = 4 then ⟨a.cache, a.config, a.home, a.temp, some d, a.keywords, a.keywordsReverse⟩
  else a

/-- The slot of the registry holding the descriptor of a given kind. -/
def slotOf (a : AppDirs) (k : Int) : Option Dir :=
  if k = 1 then a.cache
  else if k = 2 then a.config
  else if k = 3 then a.home
  else if k = 5 then a.temp
  else if k = 4 then a.workspace
  else none

/-- The switch in Assign (workspace.go) substitutes the kind's default
alias table when the incoming descriptor has no aliases (only for the
five valid kinds; the embedding fixes a non-Windows platform, matching
the package init()). -/
def aliasDefaulted (d : Dir) : Dir :=
  if 1 ≤ d.dirType ∧ d.dirType ≤ 5 ∧ d.aliases = [] then
    ⟨d.dirType, d.path, defaultAliasesFor d.dirType false⟩
  else d

/-- Assign (workspace.go): installs the (alias-defaulted) descriptor for
its kind; if that kind was already present both keyword maps are rebuilt
via initKeywords, otherwise the new descriptor's aliases are merged into
the existing maps by the same loop body. -/
def assign (a : AppDirs) (d : Dir) : AppDirs :=
  let updated := (slotOf a d.dirType).isSome
  let d' := aliasDefaulted d
  let a' := storeSlot a d'
  if updated then initKeywords a'
  else
    let maps := aliasLoop d'.path a'.keywords a'.keywordsReverse 0 d'.aliases
    setMaps a' maps.1 maps.2

/-- AppDirs.Cache (workspace.go): the cache path, or "" when unset. -/
def cacheAcc (a : AppDirs) : Str :=
  match a.cache with
  | some d => d.path
  | none => []

/-- AppDirs.Config (workspace.go), translated exactly as written: the
guard tests a.cache (not a.config); reading a.config.Path when a.config
is nil is a nil-pointer dereference, modelled as none. -/
def configAcc (a : AppDirs) : Option Str :=
  if a.cache.isSome then a.config.map Dir.path else some []

/-- AppDirs.Home (workspace.go). -/
def homeAcc (a : AppDirs) : Str :=
  match a.home with
  | some d => d.path
  | none => []

/-- AppDirs.Temp (workspace.go). -/
def tempAcc (a : AppDirs) : Str :=
  match a.temp with
  | some d => d.path
  | none => []

/-- AppDirs.Workspace (workspace.go). -/
def workspaceAcc (a : AppDirs) : Str :=
  match a.workspace with
  | some d => d.path
  | none => []

/-- DirType.String (dir.go): the fixed name table indexed by d-1 behind a
range guard. -/
def dirTypeString (d : Int) : Str :=
  if d < 1 ∨ 5 < d then []
  else ([str "cache", str "config", str "home", str "workspace", str "temp"].getD
    (d - 1).toNat [])

/-- The outcome of AppDirs.RemoveTemp: the returned error (or success)
and, when the guard chain was passed, the path handed to os.RemoveAll. -/
structure TempRemoval where
  result : Except Str Unit
  removed : Option Str

/-- AppDirs.RemoveTemp (workspace.go), as a function of the temp slot,
the platform temp root (os.TempDir()) and the subdir argument.  The
source reads a.temp.Path before any nil check, so an unset slot is a
nil-pointer dereference, modelled as none.  os.RemoveAll is modelled as
succeeding; `removed` records the path it would delete recursively. -/
def removeTempGo (temp : Option Dir) (tmpRoot subdir : Str) : Option TempRemoval :=
  match temp with
  | none => none
  | some td =>
    if td.path = [] then some ⟨.error (str "temp directory is not configured correctly"), none⟩
    else
      let tmp := clean tmpRoot
      let current := join2 td.path subdir
      if ¬ tmp.isPrefixOf current then
        some ⟨.error (str "temp directory is considered unsafe"), none⟩
      else if current = tmp then
        some ⟨.error (str "expected a subdirectory within the temp directory"), none⟩
      else some ⟨.ok (), some current⟩

/-- AppDirs.RecreateTemp (workspace.go): RemoveTemp first (propagating
its error), then os.Mkdir of Join(a.temp.Path, subdir); the second
component records the directory created. -/
def recreateTempGo (temp : Option Dir) (tmpRoot subdir : Str) :
    Option (TempRemoval × Option Str) :=
  match removeTempGo temp tmpRoot subdir with
  | none => none
  | some res =>
    match res.result with
    | .error e => some (⟨.error e, res.removed⟩, none)
    | .ok _ =>
      match temp with
      | none => none
      | some td => some (⟨.ok (), res.removed⟩, some (join2 td.path subdir))

/-- AppDirs.CreateTemp (workspace.go), as a function of the registry and
an os.Stat view (none: does not exist; some b: exists, b tells whether it
is a directory).  The second component records the directory created by
os.Mkdir, if any; Mkdir itself is modelled as succeeding. -/
def createTempGo (a : AppDirs) (stat : Str → Option Bool) : Except Str Unit × Option Str :=
  let path := tempAcc a
  if path = [] then (.error (str "cannot create temp directory, invalid state"), none)
  else
    match stat path with
    | some true => (.ok (), none)
    | some false => (.error (str "cannot create temp directory, duplicate name: " ++ path), none)
    | none => (.ok (), some path)

/-- The process environment consumed by Root (dir.go): the invocation
path os.Args[0], the working directory os.Getwd(), and the os.Stat view
telling which paths hold a ".git" subdirectory. -/
structure RootEnv where
  arg0 : Str
  cwd : Str
  hasGitDir : Str → Bool

/-- The file part of filepath.Split: the final path element. -/
def baseNameOf (p : Str) : Str := (splitSep p).getLastD []

/-- filepath.Dir for Unix: everything up to the final separator, cleaned. -/
def filepathDir (p : Str) : Str := clean (p.take (p.length - (baseNameOf p).length))

/-- The upward traversal loop of Root (dir.go): checks each directory for
a ".git" subdirectory, moving to the parent until the filesystem root has
been checked.  fuel bounds the recursion (the Go loop is unbounded but
strictly shortens the path until it reaches "/"). -/
def rootLoop (git : Str → Bool) : Nat → Bool → Str → Except Str Str
  | 0, _, _ => .error (str "fuel exhausted")
  | n + 1, isRoot, dir =>
    if git (join2 dir (str ".git")) then .ok dir
    else if isRoot then .error (str "cannot identify workspace root (no .git repository found)")
    else
      let dir' := filepathDir dir
      rootLoop git n (dir' = [sep]) dir'

/-- Root (dir.go): returns the working directory unchanged when the base
name of os.Args[0] equals appName, otherwise walks upward looking for a
".git" directory. -/
def rootGo (env : RootEnv) (fuel : Nat) (appName : Str) : Except Str Str :=
  let cmd := baseNameOf env.arg0
  if cmd = appName then .ok env.cwd
  else rootLoop env.hasGitDir fuel false env.cwd

/-- The platform directory provider consumed by NewDir (dir.go): results
of os.UserCacheDir, os.UserHomeDir, Root(appName) and os.TempDir (none
models a lookup error), plus the platform identity for the alias table. -/
structure Platform where
  windows : Bool
  userCacheDir : Option Str
  userHomeDir : Option Str
  rootFor : Str → Option Str
  osTempDir : Str

/-- The per-kind platform default path consulted by NewDir (dir.go) when
no explicit path is supplied: Cache and Temp join the platform directory
with the application name, Config and Workspace resolve through Root, and
Home is the platform home directory; none models a lookup failure. -/
def newDirLookup (plat : Platform) (dirType : Int) (appName : Str) : Option Str :=
  if dirType = 1 then plat.userCacheDir.map (fun c => join2 c appName)
  else if dirType = 2 ∨ dirType = 4 then plat.rootFor appName
  else if dirType = 3 then plat.userHomeDir
  else if dirType = 5 then some (join2 plat.osTempDir appName)
  else some []

/-- NewDir (dir.go): resolves the path (explicit absolute path, else the
per-kind platform default), wraps lookup failures into the
"cannot initialize directory" error, cleans the path, and substitutes the
per-kind default alias table when no aliases were supplied. -/
def newDir (plat : Platform) (dirType : Int) (appName : Str) (optPath : Str)
    (optAliases : List Str) : Except Str Dir :=
  if optPath ≠ [] then
    if ¬ isAbs optPath then .error (str "cannot process relative path: " ++ optPath)
    else .ok ⟨dirType, clean optPath,
      if optAliases = [] then defaultAliasesFor dirType plat.windows else optAliases⟩
  else
    match newDirLookup plat dirType appName with
    | none => .error (str "cannot initialize directory: " ++ dirTypeString dirType)
    | some path => .ok ⟨dirType, clean path,
        if optAliases = [] then defaultAliasesFor dirType plat.windows else optAliases⟩

/-- The per-segment substitution described by the specification: a
segment is replaced exactly when it equals a forward-map key; every other
segment is kept literally. -/
def specSegSubst (kw : List (Str × Str)) (s : Str) : Str :=
  match mapGet? kw s with
  | some v => v
  | none => s

/-- The substitution core described by the specification for MakeAbsolute:
split the input on the platform separator, substitute whole segments, and
rejoin the segments with path-join semantics. -/
def specMakeAbsCore (kw : List (Str × Str)) (input : Str) : Str :=
  ((splitSep input).map (specSegSubst kw)).foldl join2 []

/-- The reverse-substitution pipeline described by the specification for
Parameterize: sort the reverse-map pairs by descending path length,
replace each path by its alias across the whole input, strip a trailing
separator, and express a still-relative result relative to the base path,
falling back to the cleaned literal result. -/
def specParameterize (rev : List (Str × Str)) (basePath input : Str) : Str :=
  let s := (sortDesc rev).foldl (fun s o => replaceAll s o.1 o.2) input
  let s := trimSep s
  if isAbs s then s
  else
    match rel basePath s with
    | some r => r
    | none => clean s

/-- The forward-map construction described by the specification: every
alias of every listed descriptor, in order, maps to that descriptor's
path (last writer wins). -/
def specForward (dirs : List Dir) (kw0 : List (Str × Str)) : List (Str × Str) :=
  dirs.foldl (fun kw d => d.aliases.foldl (fun m al => mapPut m al d.path) kw) kw0

/-- The reverse-map construction described by the specification: each
listed descriptor's first-listed alias takes the reverse slot for that
descriptor's path. -/
def specReverse (dirs : List Dir) (rev0 : List (Str × Str)) : List (Str × Str) :=
  dirs.foldl (fun rev d =>
    match d.aliases with
    | [] => rev
    | a0 :: _ => mapPut rev d.path a0) rev0

/-- A plain path element: nonempty, not ".", not "..", and free of the
path separator.  Cleaned paths are built from such elements. -/
def goodSeg (e : Str) : Prop :=
  e ≠ [] ∧ e ≠ str "." ∧ e ≠ str ".." ∧ ¬ sep ∈ e

instance (e : Str) : Decidable (goodSeg e) := by
  unfold goodSeg; exact inferInstance

/-! ### Sanity checks of the string embedding against Go behavior
(values mirror the repository's own tests and Go's documented stdlib
semantics). -/

theorem sanity_clean :
    clean (str "/tmp/") = str "/tmp" ∧ clean (str "a/../..") = str ".." ∧
    clean (str "/..") = str "/" ∧ clean [] = str "." := by decide

theorem sanity_join_rel :
    join2 (str "/tmp") (str "Test") = str "/tmp/Test" ∧
    join2 (str "/tmpevil") [] = str "/tmpevil" ∧
    rel (str "/") (str "/test") = some (str "test") ∧
    rel (str "/x") (str "/test") = some (str "../test") ∧
    rel (str "/base") (str "$A/b") = none := by decide

theorem sanity_replace :
    replaceAll (str "/a/b/a") (str "/a") (str "$A") = str "$A/b$A" ∧
    replaceAll (str "abc") [] [] = str "abc" ∧
    hasSub (str "/tmpevil") (str "/tmp") = true := by decide

theorem sanity_transcoder :
    parameterize [(str "/a", str "$A")] (str "/base") (str "/a/b/a") = str "$A/b$A" ∧
    makeAbsolute [(str "$A", str "/a")] none (str "/base") (str "$A/b$A") = str "/a/b$A" := by
  decide

/-! ### Basic map lemmas -/

theorem mapGet?_mem {m : List (Str × Str)} {q v : Str} (h : mapGet? m q = some v) :
    (q, v) ∈ m := by
  induction m with
  | nil => simp [mapGet?] at h
  | cons e rest ih =>
    obtain ⟨k, w⟩ := e
    by_cases hk : k = q
    · subst hk
      simp [mapGet?] at h
      simp [h]
    · simp [mapGet?, hk] at h
      exact List.mem_cons_of_mem _ (ih h)

/-! ### C8: DirType.String -/

/-- C8: DirType.String returns exactly "cache", "config", "home",
"workspace" and "temp" for the five valid DirType values 1..5, and the
empty string for every other integer value, never failing. -/
theorem c8_dirtype_string :
    dirTypeString 1 = str "cache" ∧ dirTypeString 2 = str "config" ∧
    dirTypeString 3 = str "home" ∧ dirTypeString 4 = str "workspace" ∧
    dirTypeString 5 = str "temp" ∧
    ∀ d : Int, (d < 1 ∨ 5 < d) → dirTypeString d = [] := by
  refine ⟨by decide, by decide, by decide, by decide, by decide, ?_⟩
  intro d hd
  unfold dirTypeString
  rw [if_pos hd]

/-- Witness for C8 at the out-of-range inputs 0, 6 and -3. -/
theorem c8_witness :
    dirTypeString 0 = [] ∧ dirTypeString 6 = [] ∧ dirTypeString (-3) = [] :=
  ⟨c8_dirtype_string.2.2.2.2.2 0 (by decide),
   c8_dirtype_string.2.2.2.2.2 6 (by decide),
   c8_dirtype_string.2.2.2.2.2 (-3) (by decide)⟩

/-! ### C9: Root short-circuit -/

/-- C9: whenever the base name of the executing process's invocation path
equals appName, Root returns the current working directory unchanged; the
result holds for every filesystem oracle and every fuel bound, so no
repository-marker check or upward traversal influences it. -/
theorem c9_root_shortcircuit (env : RootEnv) (fuel : Nat) (appName : Str)
    (h : baseNameOf env.arg0 = appName) :
    rootGo env fuel appName = .ok env.cwd := by
  simp [rootGo, h]

/-- Witness for C9: a process invoked as /usr/bin/myapp with app name
"myapp" and a filesystem with no .git anywhere still yields the cwd. -/
theorem c9_witness :
    rootGo ⟨str "/usr/bin/myapp", str "/work/dir", fun _ => false⟩ 0 (str "myapp") =
      .ok (str "/work/dir") :=
  c9_root_shortcircuit ⟨str "/usr/bin/myapp", str "/work/dir", fun _ => false⟩ 0
    (str "myapp") (by decide)

/-! ### C10: unset temp slot -/

/-- C10: with an unset temp slot, RemoveTemp and RecreateTemp dereference
the nil temp descriptor before any presence check (no defined result,
modelled as none), while CreateTemp returns the "invalid state" error for
every filesystem view, creating nothing. -/
theorem c10_unset_temp (a : AppDirs) (tmpRoot subdir : Str) (stat : Str → Option Bool)
    (h : a.temp = none) :
    removeTempGo a.temp tmpRoot subdir = none ∧
    recreateTempGo a.temp tmpRoot subdir = none ∧
    createTempGo a stat = (.error (str "cannot create temp directory, invalid state"), none) := by
  refine ⟨?_, ?_, ?_⟩ <;> simp [removeTempGo, recreateTempGo, createTempGo, tempAcc, h]

/-- Witness for C10 on the empty registry. -/
theorem c10_witness :
    removeTempGo (AppDirs.temp ⟨none, none, none, none, none, [], []⟩) (str "/tmp") [] = none ∧
    recreateTempGo (AppDirs.temp ⟨none, none, none, none, none, [], []⟩) (str "/tmp") [] = none ∧
    createTempGo ⟨none, none, none, none, none, [], []⟩ (fun _ => none) =
      (.error (str "cannot create temp directory, invalid state"), none) :=
  c10_unset_temp ⟨none, none, none, none, none, [], []⟩ (str "/tmp") [] (fun _ => none) rfl

/-! ### C1: the Config accessor -/

/-- C1 (counter-evidence): the Config accessor guards on the cache slot
instead of the config slot.  With a config descriptor assigned at "/cfg"
and no cache descriptor, Config() returns "" instead of "/cfg"; with a
cache descriptor assigned and no config descriptor, Config() dereferences
the nil config pointer (modelled as none). -/
theorem c1_config_accessor_bug :
    configAcc ⟨none, some ⟨2, str "/cfg", []⟩, none, none, none, [], []⟩ = some [] ∧
    str "/cfg" ≠ [] ∧
    configAcc ⟨some ⟨1, str "/cache", []⟩, none, none, none, none, [], []⟩ = none := by
  exact ⟨rfl, by decide, rfl⟩

/-! ### C2: the RemoveTemp containment failsafe -/

/-- C2 (counter-evidence): with temp root "/tmp" and a temp descriptor at
"/tmpevil" — a path sharing the string prefix but lying outside the temp
root — RemoveTemp passes both guards and hands "/tmpevil" to
os.RemoveAll, although "/tmpevil" is not a subdirectory of "/tmp". -/
theorem c2_prefix_containment_bug :
    removeTempGo (some ⟨5, str "/tmpevil", []⟩) (str "/tmp") [] =
      some ⟨.ok (), some (str "/tmpevil")⟩ ∧
    (str "/tmp/").isPrefixOf (str "/tmpevil") = false ∧
    str "/tmpevil" ≠ str "/tmp" := by
  exact ⟨rfl, by decide, by decide⟩

/-! ### C4: MakeAbsolute substitutes whole segments only -/

/-- C4: MakeAbsolute substitutes a keyword only when it constitutes a
whole path segment: the input is split on the platform separator, each
segment equal to a forward-map key is replaced by the mapped path, every
other segment (including segments merely containing a keyword, such as
"$TEMPtest") is kept literally, and the segments are rejoined with
path-join semantics (then routed through the absolute-prefix restoration
and AbsPath steps of the source).  The hypothesis is the registry
invariant that mapped paths are nonempty. -/
theorem c4_segment_substitution (kw : List (Str × Str)) (home : Option Str)
    (basePath input : Str) (hvals : ∀ e ∈ kw, e.2 ≠ []) :
    makeAbsolute kw home basePath input =
      absPath home basePath
        (if isAbs input ∧ ¬ isAbs (specMakeAbsCore kw input) then
          sep :: specMakeAbsCore kw input
        else specMakeAbsCore kw input) := by
  have key : ∀ (segs : List Str) (acc : Str),
      segs.foldl (fun result segment =>
        let s := mapGet kw segment
        if s ≠ [] then join2 result s else join2 result segment) acc =
      (segs.map (specSegSubst kw)).foldl join2 acc := by
    intro segs
    induction segs with
    | nil => intro acc; rfl
    | cons e rest ih =>
      intro acc
      have hstep : (if mapGet kw e ≠ [] then join2 acc (mapGet kw e) else join2 acc e) =
          join2 acc (specSegSubst kw e) := by
        cases hm : mapGet? kw e with
        | none => simp [mapGet, specSegSubst, hm]
        | some v =>
          have hv : v ≠ [] := hvals (e, v) (mapGet?_mem hm)
          simp [mapGet, specSegSubst, hm, hv]
      simp only [List.foldl_cons, List.map_cons]
      rw [hstep, ih]
  unfold makeAbsolute specMakeAbsCore
  rw [key]

/-- Witness for C4: with the forward map sending $TEMP to /tmp/Test, the
input "$TEMPtest" (keyword as a proper substring of a segment) is kept
literally while the whole segment "$TEMP" would be expanded. -/
theorem c4_witness :
    makeAbsolute [(str "$TEMP", str "/tmp/Test")] none (str "/ws") (str "$TEMPtest") =
      absPath none (str "/ws")
        (if isAbs (str "$TEMPtest") ∧
            ¬ isAbs (specMakeAbsCore [(str "$TEMP", str "/tmp/Test")] (str "$TEMPtest")) then
          sep :: specMakeAbsCore [(str "$TEMP", str "/tmp/Test")] (str "$TEMPtest")
        else specMakeAbsCore [(str "$TEMP", str "/tmp/Test")] (str "$TEMPtest")) :=
  c4_segment_substitution [(str "$TEMP", str "/tmp/Test")] none (str "/ws")
    (str "$TEMPtest") (by decide)

/-! ### C7: NewDir default alias tables -/

theorem newDir_default_aliases {plat : Platform} {k : Int} {appName optPath : Str} {d : Dir}
    (h : newDir plat k appName optPath [] = .ok d) :
    d.aliases = defaultAliasesFor k plat.windows := by
  unfold newDir at h
  by_cases h1 : optPath ≠ []
  · rw [if_pos h1] at h
    by_cases h2 : ¬ isAbs optPath
    · rw [if_pos h2] at h
      exact Except.noConfusion h
    · rw [if_neg h2] at h
      injection h with h3
      subst h3
      rfl
  · rw [if_neg h1] at h
    cases hlk : newDirLookup plat k appName with
    | none =>
      rw [hlk] at h
      exact Except.noConfusion h
    | some path =>
      rw [hlk] at h
      injection h with h3
      subst h3
      rfl

/-- C7: when NewDir is called with no aliases supplied, the resulting
descriptor carries its kind's default alias set: Cache, Config, Home
(with "~" appended on non-Windows platforms), Workspace, and Temp as
listed in the specification. -/
theorem c7_default_aliases (plat : Platform) (k : Int) (appName optPath : Str) (d : Dir)
    (h : newDir plat k appName optPath [] = .ok d) :
    (k = 1 → d.aliases = [str "$CACHE", str "$\x7bCACHE\x7d"]) ∧
    (k = 2 → d.aliases = []) ∧
    (k = 3 → d.aliases =
      [str "$HOME", str "$\x7bHOME\x7d"] ++ (if plat.windows then [] else [str "~"])) ∧
    (k = 4 → d.aliases =
      [str "$workspaceRoot", str "$\x7bworkspaceRoot\x7d", str "$PWD", str "$\x7bPWD\x7d"]) ∧
    (k = 5 → d.aliases =
      [str "$TEMP", str "$\x7bTEMP\x7d", str "$TMP", str "$\x7bTMP\x7d",
       str "$TMPDIR", str "$\x7bTMPDIR\x7d", str "$TEMPDIR", str "$\x7bTEMPDIR\x7d"]) := by
  have hd := newDir_default_aliases h
  refine ⟨?_, ?_, ?_, ?_, ?_⟩ <;> intro hk <;> subst hk <;>
    simpa [defaultAliasesFor, defaultCache, defaultConfig, defaultHomeFor,
      defaultWorkspace, defaultTemp] using hd

/-- Witness for C7: a cache descriptor built with no aliases carries the
default cache alias set. -/
theorem c7_witness :
    newDir ⟨false, some (str "/c"), some (str "/h"), fun _ => some (str "/r"), str "/tmp"⟩ 1
        (str "Test") [] [] =
      .ok ⟨1, str "/c/Test", [str "$CACHE", str "$\x7bCACHE\x7d"]⟩ ∧
    Dir.aliases ⟨1, str "/c/Test", [str "$CACHE", str "$\x7bCACHE\x7d"]⟩ =
      [str "$CACHE", str "$\x7bCACHE\x7d"] :=
  ⟨rfl,
   (c7_default_aliases ⟨false, some (str "/c"), some (str "/h"), fun _ => some (str "/r"),
     str "/tmp"⟩ 1 (str "Test") [] ⟨1, str "/c/Test", [str "$CACHE", str "$\x7bCACHE\x7d"]⟩
     rfl).1 rfl⟩

/-! ### C6: Assign and the keyword maps -/

theorem aliasLoop_pos (path : Str) : ∀ (als : List Str) (kw rev : List (Str × Str)) (i : Nat),
    i ≠ 0 → aliasLoop path kw rev i als = (als.foldl (fun m al => mapPut m al path) kw, rev) := by
  intro als
  induction als with
  | nil => intro kw rev i _; rfl
  | cons a rest ih =>
    intro kw rev i hi
    simp only [aliasLoop, List.foldl_cons]
    rw [if_neg hi]
    exact ih _ _ _ (Nat.succ_ne_zero i)

theorem aliasLoop_zero (path : Str) (kw rev : List (Str × Str)) (als : List Str) :
    aliasLoop path kw rev 0 als =
      (als.foldl (fun m al => mapPut m al path) kw,
       match als with
       | [] => rev
       | a0 :: _ => mapPut rev path a0) := by
  cases als with
  | nil => rfl
  | cons a0 rest =>
    rw [show aliasLoop path kw rev 0 (a0 :: rest) =
        aliasLoop path (mapPut kw a0 path) (mapPut rev path a0) 1 rest from rfl]
    rw [aliasLoop_pos path rest _ _ 1 one_ne_zero]
    rfl

theorem fold_maps : ∀ (dirs : List Dir) (kw rev : List (Str × Str)),
    dirs.foldl (fun m d => aliasLoop d.path m.1 m.2 0 d.aliases) (kw, rev) =
      (specForward dirs kw, specReverse dirs rev) := by
  intro dirs
  induction dirs with
  | nil => intro kw rev; rfl
  | cons d rest ih =>
    intro kw rev
    simp only [List.foldl_cons, specForward, specReverse]
    rw [aliasLoop_zero]
    exact ih _ _

theorem initKeywords_maps (b : AppDirs) :
    (initKeywords b).keywords = specForward (registeredDirs b) [] ∧
    (initKeywords b).keywordsReverse = specReverse (registeredDirs b) [] := by
  unfold initKeywords setMaps
  rw [fold_maps]
  exact ⟨rfl, rfl⟩

theorem storeSlot_maps (a : AppDirs) (d : Dir) :
    (storeSlot a d).keywords = a.keywords ∧ (storeSlot a d).keywordsReverse = a.keywordsReverse := by
  unfold storeSlot
  split
  · exact ⟨rfl, rfl⟩
  · split
    · exact ⟨rfl, rfl⟩
    · split
      · exact ⟨rfl, rfl⟩
      · split
        · exact ⟨rfl, rfl⟩
        · split
          · exact ⟨rfl, rfl⟩
          · exact ⟨rfl, rfl⟩

theorem aliasDefaulted_dirType (d : Dir) : (aliasDefaulted d).dirType = d.dirType := by
  unfold aliasDefaulted
  split
  · rfl
  · rfl

theorem slotOf_initKeywords (b : AppDirs) (k : Int) : slotOf (initKeywords b) k = slotOf b k := rfl

theorem slotOf_storeSlot_self (a : AppDirs) (d : Dir)
    (hk : 1 ≤ d.dirType ∧ d.dirType ≤ 5) :
    slotOf (storeSlot a d) d.dirType = some d := by
  have hcase : d.dirType = 1 ∨ d.dirType = 2 ∨ d.dirType = 3 ∨ d.dirType = 4 ∨ d.dirType = 5 := by
    omega
  rcases hcase with h | h | h | h | h <;> simp [storeSlot, slotOf, h]

/-- C6: Assign installs the (alias-defaulted) descriptor for its kind; if
a descriptor of that kind already existed, both keyword maps are rebuilt
from scratch by iterating the registered descriptors in the fixed kind
order Cache, Config, Home, Temp, Workspace, each descriptor's
first-listed alias taking the reverse slot for its path; if the kind was
previously absent, the descriptor's aliases are merged into the existing
maps incrementally, every alias mapping forward to the path and only the
first alias becoming the reverse entry for that path. -/
theorem c6_assign_keyword_maps (a : AppDirs) (d : Dir)
    (hk : 1 ≤ d.dirType ∧ d.dirType ≤ 5) :
    slotOf (assign a d) d.dirType = some (aliasDefaulted d) ∧
    ((slotOf a d.dirType).isSome = true →
      (assign a d).keywords = specForward (registeredDirs (assign a d)) [] ∧
      (assign a d).keywordsReverse = specReverse (registeredDirs (assign a d)) []) ∧
    (slotOf a d.dirType = none →
      (assign a d).keywords = specForward [aliasDefaulted d] a.keywords ∧
      (assign a d).keywordsReverse = specReverse [aliasDefaulted d] a.keywordsReverse) := by
  have hdt : (aliasDefaulted d).dirType = d.dirType := aliasDefaulted_dirType d
  refine ⟨?_, ?_, ?_⟩
  · unfold assign
    cases hup : (slotOf a d.dirType).isSome with
    | true =>
      rw [if_pos rfl]
      rw [slotOf_initKeywords]
      rw [← hdt]
      exact slotOf_storeSlot_self a (aliasDefaulted d) (by rw [hdt]; exact hk)
    | false =>
      rw [if_neg (by simp [hup])]
      show slotOf (setMaps _ _ _) _ = _
      have : ∀ (b : AppDirs) (kw rev : List (Str × Str)) (k : Int),
          slotOf (setMaps b kw rev) k = slotOf b k := fun _ _ _ _ => rfl
      rw [this]
      rw [← hdt]
      exact slotOf_storeSlot_self a (aliasDefaulted d) (by rw [hdt]; exact hk)
  · intro hup
    unfold assign
    rw [if_pos hup]
    exact initKeywords_maps _
  · intro hup
    unfold assign
    rw [if_neg (by simp [hup])]
    have hms := storeSlot_maps a (aliasDefaulted d)
    constructor
    · show (aliasLoop _ _ _ 0 _).1 = _
      rw [aliasLoop_zero]
      simp only [specForward, List.foldl_cons, List.foldl_nil]
      rw [hms.1]
    · show (aliasLoop _ _ _ 0 _).2 = _
      rw [aliasLoop_zero]
      simp only [specReverse, List.foldl_cons, List.foldl_nil]
      rw [hms.2]

/-- Witness for C6: assigning a workspace descriptor to an empty registry
takes the incremental-merge branch. -/
theorem c6_witness :
    (assign ⟨none, none, none, none, none, [], []⟩ ⟨4, str "/ws", []⟩).keywords =
      specForward [aliasDefaulted ⟨4, str "/ws", []⟩] [] :=
  ((c6_assign_keyword_maps ⟨none, none, none, none, none, [], []⟩ ⟨4, str "/ws", []⟩
      (by decide)).2.2 rfl).1

/-! ### Lemmas about strings.Replace -/

theorem isPrefixOf_append_self : ∀ (a b : Str), a.isPrefixOf (a ++ b) = true := by
  intro a
  induction a with
  | nil => intro b; simp [List.isPrefixOf]
  | cons c cs ih => intro b; simp [List.isPrefixOf, ih]

theorem replaceCore_fuel (old new : Str) (ho : old ≠ []) :
    ∀ (f1 : Nat) (s : Str) (f2 : Nat), s.length ≤ f1 → s.length ≤ f2 →
      replaceCore old new f1 s = replaceCore old new f2 s := by
  intro f1
  induction f1 with
  | zero =>
    intro s f2 h1 _
    have hs : s = [] := List.eq_nil_of_length_eq_zero (Nat.le_zero.mp h1)
    subst hs
    cases f2 <;> rfl
  | succ f ih =>
    intro s f2 h1 h2
    cases s with
    | nil => cases f2 <;> rfl
    | cons c cs =>
      cases f2 with
      | zero => exact absurd h2 (by simp)
      | succ g =>
        simp only [replaceCore]
        by_cases hp : old.isPrefixOf (c :: cs)
        · rw [if_pos hp, if_pos hp]
          congr 1
          apply ih
          · have hol : 1 ≤ old.length := by
              cases old with
              | nil => exact absurd rfl ho
              | cons _ _ => simp
            simp only [List.length_drop, List.length_cons]
            simp only [List.length_cons] at h1
            omega
          · have hol : 1 ≤ old.length := by
              cases old with
              | nil => exact absurd rfl ho
              | cons _ _ => simp
            simp only [List.length_drop, List.length_cons]
            simp only [List.length_cons] at h2
            omega
        · rw [if_neg hp, if_neg hp]
          congr 1
          apply ih
          · simp only [List.length_cons] at h1; omega
          · simp only [List.length_cons] at h2; omega

theorem replaceCore_of_not_sub (old new : Str) : ∀ (fuel : Nat) (s : Str), s.length ≤ fuel →
    hasSub s old = false → replaceCore old new fuel s = s := by
  intro fuel
  induction fuel with
  | zero =>
    intro s h1 _
    have hs : s = [] := List.eq_nil_of_length_eq_zero (Nat.le_zero.mp h1)
    subst hs
    rfl
  | succ f ih =>
    intro s h1 h2
    cases s with
    | nil => rfl
    | cons c cs =>
      simp only [hasSub, Bool.or_eq_false_iff] at h2
      simp only [replaceCore]
      rw [if_neg (by simp [h2.1])]
      rw [ih cs (by simp only [List.length_cons] at h1; omega) h2.2]

theorem replaceAll_of_not_sub (s old new : Str) (h : hasSub s old = false) :
    replaceAll s old new = s := by
  have ho : old ≠ [] := by
    intro he
    subst he
    cases s <;> simp [hasSub, List.isPrefixOf] at h
  unfold replaceAll
  rw [if_neg ho]
  exact replaceCore_of_not_sub old new s.length s (Nat.le_refl _) h

theorem replaceAll_append_self (old t new : Str) (ho : old ≠ []) :
    replaceAll (old ++ t) old new = new ++ replaceAll t old new := by
  unfold replaceAll
  rw [if_neg ho, if_neg ho]
  obtain ⟨o, orest, rfl⟩ : ∃ o or', old = o :: or' := by
    cases old with
    | nil => exact absurd rfl ho
    | cons o or' => exact ⟨o, or', rfl⟩
  have hl : ((o :: orest) ++ t).length = (orest.length + t.length) + 1 := by
    simp only [List.length_append, List.length_cons]
    omega
  rw [hl]
  have hshape : (o :: orest) ++ t = o :: (orest ++ t) := rfl
  rw [hshape]
  simp only [replaceCore]
  rw [if_pos (by rw [← hshape]; exact isPrefixOf_append_self (o :: orest) t)]
  congr 1
  rw [← hshape]
  rw [show ((o :: orest) ++ t).drop (o :: orest).length = t from List.drop_left (o :: orest) t]
  exact replaceCore_fuel (o :: orest) new ho _ t _ (by omega) (Nat.le_refl _)

theorem flatMap_id_cons : ∀ s : Str, s.flatMap (fun c => c :: []) = s := by
  intro s
  induction s with
  | nil => rfl
  | cons c cs ih => simp [List.flatMap_cons, ih]

theorem replaceAll_nil_nil (s : Str) : replaceAll s [] [] = s := by
  unfold replaceAll
  rw [if_pos rfl, flatMap_id_cons]
  exact List.nil_append s

/-! ### Lemmas about the stable length sort -/

theorem insertDesc_perm (x : Str × Str) : ∀ l, (insertDesc x l).Perm (x :: l) := by
  intro l
  induction l with
  | nil => exact List.Perm.refl _
  | cons y ys ih =>
    unfold insertDesc
    by_cases hc : x.1.length < y.1.length
    · rw [if_pos hc]
      exact (ih.cons y).trans (List.Perm.swap x y ys)
    · rw [if_neg hc]

theorem sortDesc_perm : ∀ l, (sortDesc l).Perm l := by
  intro l
  induction l with
  | nil => exact List.Perm.refl _
  | cons x xs ih =>
    show (insertDesc x (sortDesc xs)).Perm (x :: xs)
    exact (insertDesc_perm x _).trans (ih.cons x)

theorem insertDesc_pairwise (x : Str × Str) :
    ∀ l, l.Pairwise (fun a b => b.1.length ≤ a.1.length) →
      (insertDesc x l).Pairwise (fun a b => b.1.length ≤ a.1.length) := by
  intro l
  induction l with
  | nil => intro _; exact List.pairwise_singleton _ _
  | cons y ys ih =>
    intro hp
    rw [List.pairwise_cons] at hp
    obtain ⟨hy, hys⟩ := hp
    unfold insertDesc
    by_cases hc : x.1.length < y.1.length
    · rw [if_pos hc]
      rw [List.pairwise_cons]
      refine ⟨?_, ih hys⟩
      intro z hz
      have hzm : z = x ∨ z ∈ ys := by
        have := (insertDesc_perm x ys).mem_iff.mp hz
        simpa using this
      rcases hzm with rfl | hzm
      · exact Nat.le_of_lt hc
      · exact hy z hzm
    · rw [if_neg hc]
      rw [List.pairwise_cons]
      refine ⟨?_, List.pairwise_cons.mpr ⟨hy, hys⟩⟩
      intro z hz
      rcases List.mem_cons.mp hz with rfl | hzm
      · omega
      · exact Nat.le_trans (hy z hzm) (Nat.le_of_not_lt hc)

theorem sortDesc_pairwise : ∀ l, (sortDesc l).Pairwise (fun a b => b.1.length ≤ a.1.length) := by
  intro l
  induction l with
  | nil => exact List.Pairwise.nil
  | cons x xs ih => exact insertDesc_pairwise x _ ih

theorem insertDesc_zero_after (m : List (Str × Str)) (k : Nat)
    (hm : ∀ y ∈ m, y.1 ≠ []) :
    insertDesc ([], []) (m ++ List.replicate k ([], [])) =
      m ++ List.replicate (k + 1) ([], []) := by
  induction m with
  | nil =>
    cases k with
    | zero => rfl
    | succ k' => simp [insertDesc, List.replicate_succ]
  | cons y ys ih =>
    have hy : ([] : Str).length < y.1.length := by
      simpa using List.length_pos.mpr (hm y (List.mem_cons_self y ys))
    simp only [List.cons_append, insertDesc, List.append_eq]
    rw [if_pos hy]
    rw [ih (fun z hz => hm z (List.mem_cons_of_mem y hz))]

theorem sortDesc_zeros (l : List (Str × Str)) (hl : ∀ e ∈ l, e.1 ≠ []) :
    ∀ n, sortDesc (List.replicate n ([], []) ++ l) = sortDesc l ++ List.replicate n ([], []) := by
  intro n
  induction n with
  | zero => simp
  | succ n ih =>
    rw [List.replicate_succ, List.cons_append]
    show insertDesc ([], []) (sortDesc (List.replicate n ([], []) ++ l)) = _
    rw [ih]
    exact insertDesc_zero_after (sortDesc l) n
      (fun y hy => hl y ((sortDesc_perm l).mem_iff.mp hy))

theorem foldl_replaceAll_zeros (x : Str) : ∀ n : Nat,
    List.foldl (fun s o => replaceAll s o.1 o.2) x
      (List.replicate n (([] : Str), ([] : Str))) = x := by
  intro n
  induction n with
  | zero => rfl
  | succ n ih =>
    rw [List.replicate_succ, List.foldl_cons]
    rw [show replaceAll x ([] : Str) ([] : Str) = x from replaceAll_nil_nil x]
    exact ih

/-! ### C5: Parameterize -/

/-- C5: Parameterize performs literal substring replacement of each
reverse-map path by its alias across the whole input, applying the
replacements in descending order of path length (so a longer registered
path is always substituted before any shorter one — the pairwise ordering
conjunct), over exactly the reverse-map pairs (the permutation conjunct);
afterwards a trailing separator is stripped and a still-relative result
is expressed relative to the base path, falling back to the cleaned
literal result.  The hypothesis is the registry invariant that the
registered paths are nonempty. -/
theorem c5_parameterize_spec (rev : List (Str × Str)) (basePath input : Str)
    (hkeys : ∀ e ∈ rev, e.1 ≠ []) :
    parameterize rev basePath input = specParameterize rev basePath input ∧
    (sortDesc rev).Pairwise (fun a b => b.1.length ≤ a.1.length) ∧
    (sortDesc rev).Perm rev := by
  refine ⟨?_, sortDesc_pairwise rev, sortDesc_perm rev⟩
  have hfold : List.foldl (fun s o => replaceAll s o.1 o.2) input
      (sortDesc (List.replicate rev.length ([], []) ++ rev)) =
      List.foldl (fun s o => replaceAll s o.1 o.2) input (sortDesc rev) := by
    rw [sortDesc_zeros rev hkeys rev.length, List.foldl_append, foldl_replaceAll_zeros]
  unfold parameterize specParameterize
  simp only [hfold]

/-- Witness for C5 on a registry where one registered path is a proper
prefix of another. -/
theorem c5_witness :
    parameterize [(str "/a", str "$A"), (str "/a/b", str "$B")] (str "/ws") (str "/a/b/c") =
      specParameterize [(str "/a", str "$A"), (str "/a/b", str "$B")] (str "/ws")
        (str "/a/b/c") :=
  (c5_parameterize_spec [(str "/a", str "$A"), (str "/a/b", str "$B")] (str "/ws")
    (str "/a/b/c") (by decide)).1

/-! ### Lemmas about splitting and joining on the separator -/

theorem splitSep_ne_nil : ∀ s : Str, splitSep s ≠ [] := by
  intro s
  cases s with
  | nil => simp [splitSep]
  | cons c cs =>
    simp only [splitSep]
    cases h : splitSep cs with
    | nil => simp
    | cons g gs => by_cases hc : c = sep <;> simp [hc]

theorem splitSep_sepfree (e : Str) (he : ¬ sep ∈ e) : splitSep e = [e] := by
  induction e with
  | nil => rfl
  | cons c cs ih =>
    have h1 : c ≠ sep := fun h => he (h ▸ List.mem_cons_self c cs)
    have h2 : ¬ sep ∈ cs := fun h => he (List.mem_cons_of_mem c h)
    simp only [splitSep, ih h2]
    rw [if_neg h1]

theorem splitSep_cons_sep (t : Str) : splitSep (sep :: t) = [] :: splitSep t := by
  simp only [splitSep]
  cases h : splitSep t with
  | nil => exact absurd h (splitSep_ne_nil t)
  | cons g gs => simp

theorem splitSep_append_sep : ∀ (e t : Str), ¬ sep ∈ e →
    splitSep (e ++ sep :: t) = e :: splitSep t := by
  intro e
  induction e with
  | nil => intro t _; exact splitSep_cons_sep t
  | cons c cs ih =>
    intro t he
    have h1 : c ≠ sep := fun h => he (h ▸ List.mem_cons_self c cs)
    have h2 : ¬ sep ∈ cs := fun h => he (List.mem_cons_of_mem c h)
    show splitSep (c :: (cs ++ sep :: t)) = (c :: cs) :: splitSep t
    simp only [splitSep, ih t h2]
    rw [if_neg h1]

theorem joinSep_cons (e : Str) (l : List Str) (hl : l ≠ []) :
    joinSep (e :: l) = e ++ sep :: joinSep l := by
  cases l with
  | nil => exact absurd rfl hl
  | cons f fs => rfl

theorem splitSep_joinSep : ∀ (l : List Str), l ≠ [] → (∀ e ∈ l, ¬ sep ∈ e) →
    splitSep (joinSep l) = l := by
  intro l
  induction l with
  | nil => intro h _; exact absurd rfl h
  | cons e rest ih =>
    intro _ hfree
    cases rest with
    | nil => exact splitSep_sepfree e (hfree e (List.mem_cons_self e []))
    | cons f fs =>
      rw [joinSep_cons e (f :: fs) (by simp)]
      rw [splitSep_append_sep e (joinSep (f :: fs)) (hfree e (List.mem_cons_self e _))]
      rw [ih (by simp) (fun x hx => hfree x (List.mem_cons_of_mem e hx))]

theorem splitSep_joinSep_append : ∀ (l : List Str) (t : Str), l ≠ [] →
    (∀ e ∈ l, ¬ sep ∈ e) → splitSep (joinSep l ++ sep :: t) = l ++ splitSep t := by
  intro l
  induction l with
  | nil => intro t h _; exact absurd rfl h
  | cons e rest ih =>
    intro t _ hfree
    cases rest with
    | nil =>
      show splitSep (e ++ sep :: t) = e :: splitSep t
      exact splitSep_append_sep e t (hfree e (List.mem_cons_self e []))
    | cons f fs =>
      rw [joinSep_cons e (f :: fs) (by simp)]
      rw [List.append_assoc, List.cons_append]
      rw [splitSep_append_sep e _ (hfree e (List.mem_cons_self e _))]
      rw [ih t (by simp) (fun x hx => hfree x (List.mem_cons_of_mem e hx))]
      rfl

theorem joinSep_append (l1 l2 : List Str) (h1 : l1 ≠ []) (h2 : l2 ≠ []) :
    joinSep (l1 ++ l2) = joinSep l1 ++ sep :: joinSep l2 := by
  induction l1 with
  | nil => exact absurd rfl h1
  | cons e rest ih =>
    cases rest with
    | nil =>
      show joinSep (e :: l2) = joinSep [e] ++ sep :: joinSep l2
      rw [joinSep_cons e l2 h2]
      rfl
    | cons f fs =>
      show joinSep (e :: ((f :: fs) ++ l2)) =
        joinSep (e :: f :: fs) ++ sep :: joinSep l2
      rw [joinSep_cons e ((f :: fs) ++ l2) (by simp)]
      rw [ih (by simp)]
      rw [joinSep_cons e (f :: fs) (by simp)]
      simp [List.append_assoc]

/-! ### Lemmas about filepath.Clean -/

theorem clean_core (s : Str) (hs : s ≠ []) :
    clean s =
      (if isAbs s
       then sep :: joinSep ((((splitSep s).filter
         (fun e => decide (e ≠ [] ∧ e ≠ str "."))).foldl (cleanPush (isAbs s)) []).reverse)
       else if (((splitSep s).filter
         (fun e => decide (e ≠ [] ∧ e ≠ str "."))).foldl (cleanPush (isAbs s)) []).reverse = []
       then str "."
       else joinSep ((((splitSep s).filter
         (fun e => decide (e ≠ [] ∧ e ≠ str "."))).foldl (cleanPush (isAbs s)) []).reverse)) := by
  unfold clean
  rw [if_neg hs]

theorem splitSep_head_abs {s : Str} {l : List Str} (hs : s ≠ [])
    (h : splitSep s = [] :: l) : isAbs s = true := by
  cases s with
  | nil => exact absurd rfl hs
  | cons c cs =>
    by_cases hc : c = sep
    · simp [isAbs, hc]
    · exfalso
      simp only [splitSep] at h
      cases hsp : splitSep cs with
      | nil => exact absurd hsp (splitSep_ne_nil cs)
      | cons g gs => simp [hsp, hc] at h

theorem splitSep_head_not_abs {s e : Str} {l : List Str}
    (h : splitSep s = e :: l) (he : e ≠ []) : isAbs s = false := by
  cases s with
  | nil => rfl
  | cons c cs =>
    by_cases hc : c = sep
    · exfalso
      subst hc
      rw [splitSep_cons_sep] at h
      injection h with h1 _
      exact he h1.symm
    · simp [isAbs, hc]

theorem foldl_cleanPush (rooted : Bool) : ∀ (l : List Str) (stk : List Str),
    (∀ e ∈ l, e ≠ str "..") → l.foldl (cleanPush rooted) stk = l.reverse ++ stk := by
  intro l
  induction l with
  | nil => intro stk _; rfl
  | cons e rest ih =>
    intro stk h
    have he : e ≠ str ".." := h e (List.mem_cons_self e rest)
    show List.foldl (cleanPush rooted) (cleanPush rooted stk e) rest = _
    rw [show cleanPush rooted stk e = e :: stk from by unfold cleanPush; rw [if_neg he]]
    rw [ih (e :: stk) (fun x hx => h x (List.mem_cons_of_mem e hx))]
    simp

theorem filter_all {p : Str → Bool} : ∀ l : List Str, (∀ e ∈ l, p e = true) → l.filter p = l := by
  intro l
  induction l with
  | nil => intro _; rfl
  | cons e rest ih =>
    intro h
    rw [List.filter_cons_of_pos (h e (List.mem_cons_self e rest))]
    rw [ih (fun x hx => h x (List.mem_cons_of_mem e hx))]

theorem filter_dot_of_good : ∀ l : List Str, (∀ e ∈ l, e = [] ∨ goodSeg e) →
    l.filter (fun e => decide (e ≠ [] ∧ e ≠ str ".")) = l.filter (fun e => decide (e ≠ [])) := by
  intro l
  induction l with
  | nil => intro _; rfl
  | cons e rest ih =>
    intro h
    have hrest := ih (fun x hx => h x (List.mem_cons_of_mem e hx))
    rcases h e (List.mem_cons_self e rest) with he | he
    · subst he
      rw [List.filter_cons, List.filter_cons]
      rw [if_neg (by decide), if_neg (by decide)]
      exact hrest
    · rw [List.filter_cons, List.filter_cons]
      rw [if_pos (by simp [he.1, he.2.1]), if_pos (by simp [he.1])]
      rw [hrest]

theorem clean_of_split_rooted (s : Str) (l : List Str) (hs : s ≠ [])
    (hsplit : splitSep s = [] :: l) (hl : ∀ e ∈ l, e = [] ∨ goodSeg e) :
    clean s = sep :: joinSep (l.filter (fun e => decide (e ≠ []))) := by
  have habs : isAbs s = true := splitSep_head_abs hs hsplit
  have hfl : ∀ e ∈ l.filter (fun e => decide (e ≠ [])), goodSeg e := by
    intro e he
    rw [List.mem_filter] at he
    rcases hl e he.1 with h0 | h0
    · exact absurd h0 (by simpa using he.2)
    · exact h0
  rw [clean_core s hs, if_pos habs, hsplit]
  rw [show ([] :: l).filter (fun e => decide (e ≠ [] ∧ e ≠ str ".")) =
    l.filter (fun e => decide (e ≠ [] ∧ e ≠ str ".")) from by simp]
  rw [filter_dot_of_good l hl]
  rw [foldl_cleanPush (isAbs s) _ [] (fun e he => (hfl e he).2.2.1)]
  simp

theorem clean_of_split_unrooted (s : Str) (l : List Str) (hsplit : splitSep s = l)
    (hne : l ≠ []) (hl : ∀ e ∈ l, goodSeg e) : clean s = joinSep l := by
  obtain ⟨e0, l', rfl⟩ : ∃ e0 l', l = e0 :: l' := by
    cases l with
    | nil => exact absurd rfl hne
    | cons a b => exact ⟨a, b, rfl⟩
  have hs : s ≠ [] := by
    intro h
    subst h
    simp [splitSep] at hsplit
    have := hl [] (by rw [← hsplit.1]; exact List.mem_cons_self _ _)
    exact this.1 rfl
  have habs : isAbs s = false :=
    splitSep_head_not_abs hsplit (hl e0 (List.mem_cons_self e0 l')).1
  have hfilter : (e0 :: l').filter (fun e => decide (e ≠ [] ∧ e ≠ str ".")) = e0 :: l' := by
    apply filter_all
    intro e he
    have := hl e he
    simp [this.1, this.2.1]
  rw [clean_core s hs, if_neg (by simp [habs]), hsplit, hfilter]
  rw [foldl_cleanPush (isAbs s) _ [] (fun e he => (hl e he).2.2.1)]
  simp

theorem clean_rooted_good (l : List Str) (hl : ∀ e ∈ l, goodSeg e) :
    clean (sep :: joinSep l) = sep :: joinSep l := by
  cases l with
  | nil => decide
  | cons e l' =>
    have hsplit : splitSep (sep :: joinSep (e :: l')) = [] :: (e :: l') := by
      rw [splitSep_cons_sep]
      rw [splitSep_joinSep (e :: l') (by simp) (fun x hx => (hl x hx).2.2.2)]
    rw [clean_of_split_rooted _ (e :: l') (by simp) hsplit (fun x hx => Or.inr (hl x hx))]
    rw [filter_all _ (fun x hx => by simp [(hl x hx).1])]

theorem clean_unrooted_good (l : List Str) (hne : l ≠ []) (hl : ∀ e ∈ l, goodSeg e) :
    clean (joinSep l) = joinSep l :=
  clean_of_split_unrooted _ l (splitSep_joinSep l hne (fun x hx => (hl x hx).2.2.2)) hne hl

theorem clean_append_good (l : List Str) (e : Str) (hl : ∀ x ∈ l, goodSeg x)
    (he : goodSeg e) : clean (sep :: (joinSep l ++ sep :: e)) = sep :: joinSep (l ++ [e]) := by
  cases l with
  | nil =>
    have hsplit : splitSep (sep :: ((joinSep ([] : List Str)) ++ sep :: e)) =
        [] :: ([] :: [e]) := by
      show splitSep (sep :: sep :: e) = [] :: [] :: [e]
      rw [splitSep_cons_sep, splitSep_cons_sep, splitSep_sepfree e he.2.2.2]
    rw [clean_of_split_rooted _ ([] :: [e]) (by simp) hsplit ?goods]
    case goods =>
      intro x hx
      rcases List.mem_cons.mp hx with rfl | hx2
      · exact Or.inl rfl
      · rcases List.mem_cons.mp hx2 with rfl | hx3
        · exact Or.inr he
        · cases hx3
    rw [List.filter_cons, if_neg (by decide)]
    rw [filter_all _ (fun x hx => by
      rcases List.mem_cons.mp hx with rfl | hx2
      · simp [he.1]
      · cases hx2)]
    rfl
  | cons f fs =>
    have hsplit : splitSep (sep :: (joinSep (f :: fs) ++ sep :: e)) =
        [] :: ((f :: fs) ++ [e]) := by
      rw [splitSep_cons_sep]
      rw [splitSep_joinSep_append (f :: fs) e (by simp) (fun x hx => (hl x hx).2.2.2)]
      rw [splitSep_sepfree e he.2.2.2]
    rw [clean_of_split_rooted _ _ (by simp) hsplit ?goods2]
    case goods2 =>
      intro x hx
      rcases List.mem_append.mp hx with hx1 | hx2
      · exact Or.inr (hl x hx1)
      · rcases List.mem_cons.mp hx2 with rfl | hx3
        · exact Or.inr he
        · cases hx3
    rw [filter_all _ (fun x hx => by
      rcases List.mem_append.mp hx with hx1 | hx2
      · simp [(hl x hx1).1]
      · rcases List.mem_cons.mp hx2 with rfl | hx3
        · simp [he.1]
        · cases hx3)]

theorem join2_good (l : List Str) (e : Str) (hl : ∀ x ∈ l, goodSeg x) (he : goodSeg e) :
    join2 (sep :: joinSep l) e = sep :: joinSep (l ++ [e]) := by
  unfold join2
  rw [if_neg (by simp)]
  rw [show (sep :: joinSep l) ++ sep :: e = sep :: (joinSep l ++ sep :: e) from rfl]
  exact clean_append_good l e hl he

theorem clean_isAbs {s : Str} (h : isAbs s = true) : isAbs (clean s) = true := by
  have hs : s ≠ [] := by
    intro he
    subst he
    simp [isAbs] at h
  rw [clean_core s hs, if_pos h]
  simp [isAbs]

theorem getLast?_mem : ∀ {l : Str} {c : Char}, l.getLast? = some c → c ∈ l := by
  intro l
  induction l with
  | nil => intro c h; exact Option.noConfusion h
  | cons a rest ih =>
    intro c h
    cases rest with
    | nil =>
      have ha : ([a] : Str).getLast? = some a := rfl
      rw [ha] at h
      injection h with h1
      simp [h1]
    | cons b bs =>
      have hstep : ((a :: b :: bs) : Str).getLast? = ((b :: bs) : Str).getLast? :=
        List.getLast?_append_cons [a] b bs
      rw [hstep] at h
      exact List.mem_cons_of_mem a (ih h)

theorem joinSep_ne_nil (l : List Str) (hne : l ≠ []) (hl : ∀ e ∈ l, goodSeg e) :
    joinSep l ≠ [] := by
  cases l with
  | nil => exact absurd rfl hne
  | cons e rest =>
    cases rest with
    | nil => exact (hl e (List.mem_cons_self e [])).1
    | cons f fs => simp [joinSep_cons e (f :: fs) (by simp)]

theorem joinSep_getLast_not_sep : ∀ (l : List Str), l ≠ [] → (∀ e ∈ l, goodSeg e) →
    (joinSep l).getLast? ≠ some sep := by
  intro l
  induction l with
  | nil => intro h _; exact absurd rfl h
  | cons e rest ih =>
    intro _ hl
    cases rest with
    | nil =>
      intro h
      exact (hl e (List.mem_cons_self e [])).2.2.2 (getLast?_mem h)
    | cons f fs =>
      rw [joinSep_cons e (f :: fs) (by simp)]
      have hrest : ∀ x ∈ f :: fs, goodSeg x := fun x hx => hl x (List.mem_cons_of_mem e hx)
      have hne : joinSep (f :: fs) ≠ [] := joinSep_ne_nil (f :: fs) (by simp) hrest
      obtain ⟨jb, jrest, hj⟩ : ∃ b bs, joinSep (f :: fs) = b :: bs := by
        cases hcase : joinSep (f :: fs) with
        | nil => exact absurd hcase hne
        | cons b bs => exact ⟨b, bs, rfl⟩
      rw [hj]
      rw [List.getLast?_append_cons e sep (jb :: jrest)]
      rw [show (sep :: jb :: jrest : Str) = [sep] ++ jb :: jrest from rfl]
      rw [List.getLast?_append_cons [sep] jb jrest]
      rw [← hj]
      exact ih (by simp) hrest

theorem trimSep_noop (s : Str) (h : s.getLast? ≠ some sep) : trimSep s = s := by
  unfold trimSep
  rw [if_neg h]

theorem rel_none_of_abs_rel (b t : Str) (hb : isAbs b = true) (ht : isAbs t = false)
    (hct : clean t = t) : rel b t = none := by
  have hcb : isAbs (clean b) = true := clean_isAbs hb
  have hne : clean t ≠ clean b := by
    intro h
    rw [hct] at h
    rw [h] at ht
    rw [hcb] at ht
    exact Bool.noConfusion ht
  have hdot : clean b ≠ str "." := by
    intro h
    rw [h] at hcb
    exact absurd hcb (by decide)
  have hcond : isAbs (clean b) ≠ isAbs (clean t) := by
    rw [hcb, hct, ht]
    simp
  simp only [rel]
  rw [if_neg hne, if_neg hdot, if_pos hcond]

/-! ### Counting and folding over the replacement list -/

theorem key_unique {rev : List (Str × Str)} {p v : Str} {e : Str × Str}
    (hnd : (rev.map Prod.fst).Nodup) (h1 : (p, v) ∈ rev) (h2 : e ∈ rev)
    (hne : e ≠ (p, v)) : e.1 ≠ p := by
  induction rev with
  | nil => cases h1
  | cons f rest ih =>
    rw [List.map_cons, List.nodup_cons] at hnd
    obtain ⟨hf, hnd'⟩ := hnd
    rcases List.mem_cons.mp h1 with hpv | hpv
    · rcases List.mem_cons.mp h2 with he | he
      · rw [he, ← hpv]
        intro h
        exact hne (by rw [he, ← hpv])
      · intro h
        exact hf (by rw [← hpv, ← h]; exact List.mem_map.mpr ⟨e, he, rfl⟩)
    · rcases List.mem_cons.mp h2 with he | he
      · intro h
        subst he
        exact hf (by rw [h]; exact List.mem_map.mpr ⟨(p, v), hpv, rfl⟩)
      · exact ih hnd' hpv he

theorem count_of_nodup_keys {rev : List (Str × Str)} {p v : Str}
    (hnd : (rev.map Prod.fst).Nodup) (hmem : (p, v) ∈ rev) :
    rev.count (p, v) = 1 := by
  induction rev with
  | nil => cases hmem
  | cons e rest ih =>
    rw [List.map_cons, List.nodup_cons] at hnd
    obtain ⟨hne, hnd'⟩ := hnd
    rcases List.mem_cons.mp hmem with hpv | hpv
    · rw [← hpv, List.count_cons_self]
      have hnm : (p, v) ∉ rest := by
        intro h
        exact hne (by rw [← hpv]; exact List.mem_map.mpr ⟨(p, v), h, rfl⟩)
      rw [List.count_eq_zero_of_not_mem hnm]
    · have hne2 : (p, v) ≠ e := by
        intro h
        exact hne (by rw [← h]; exact List.mem_map.mpr ⟨(p, v), hpv, rfl⟩)
      rw [List.count_cons_of_ne hne2]
      exact ih hnd' hpv

theorem foldl_replaceAll_noop (s' : Str) : ∀ l : List (Str × Str),
    (∀ e ∈ l, replaceAll s' e.1 e.2 = s') →
    List.foldl (fun s o => replaceAll s o.1 o.2) s' l = s' := by
  intro l
  induction l with
  | nil => intro _; rfl
  | cons e rest ih =>
    intro h
    rw [List.foldl_cons, h e (List.mem_cons_self e rest)]
    exact ih (fun x hx => h x (List.mem_cons_of_mem e hx))

theorem foldl_replaceAll_once (e0 : Str × Str) (x s' : Str)
    (hx : replaceAll x e0.1 e0.2 = s') : ∀ l : List (Str × Str),
    l.count e0 = 1 →
    (∀ e ∈ l, e ≠ e0 → replaceAll x e.1 e.2 = x ∧ replaceAll s' e.1 e.2 = s') →
    List.foldl (fun s o => replaceAll s o.1 o.2) x l = s' := by
  intro l
  induction l with
  | nil => intro hc _; simp [List.count_nil] at hc
  | cons e rest ih =>
    intro hc hno
    by_cases he : e = e0
    · subst he
      rw [List.count_cons_self] at hc
      have hz : rest.count e = 0 := by omega
      have hnm : e ∉ rest := by
        intro h
        have := List.count_pos_iff.mpr h
        omega
      rw [List.foldl_cons, hx]
      exact foldl_replaceAll_noop s' rest (fun y hy =>
        (hno y (List.mem_cons_of_mem e hy) (fun hye => hnm (hye ▸ hy))).2)
    · rw [List.count_cons_of_ne (fun h => he h.symm)] at hc
      rw [List.foldl_cons, (hno e (List.mem_cons_self e rest) he).1]
      exact ih hc (fun y hy hye => hno y (List.mem_cons_of_mem e hy) hye)

/-! ### C3: the Parameterize / MakeAbsolute round trip -/

theorem makeAbs_fold (kw : List (Str × Str)) : ∀ (rsegs pre : List Str),
    (∀ e ∈ pre, goodSeg e) →
    (∀ e ∈ rsegs, goodSeg e ∧ mapGet kw e = []) →
    rsegs.foldl (fun result segment =>
      let s := mapGet kw segment
      if s ≠ [] then join2 result s else join2 result segment) (sep :: joinSep pre) =
    sep :: joinSep (pre ++ rsegs) := by
  intro rsegs
  induction rsegs with
  | nil => intro pre _ _; simp
  | cons e rest ih =>
    intro pre hpre hr
    obtain ⟨hge, hme⟩ := hr e (List.mem_cons_self e rest)
    rw [List.foldl_cons]
    have hstep : (let s := mapGet kw e;
        if s ≠ [] then join2 (sep :: joinSep pre) s else join2 (sep :: joinSep pre) e) =
        sep :: joinSep (pre ++ [e]) := by
      simp only [hme]
      rw [if_neg (by simp)]
      exact join2_good pre e hpre hge
    rw [hstep]
    rw [ih (pre ++ [e]) (fun x hx => by
      rcases List.mem_append.mp hx with h1 | h2
      · exact hpre x h1
      · rcases List.mem_cons.mp h2 with rfl | h3
        · exact hge
        · cases h3) (fun x hx => hr x (List.mem_cons_of_mem e hx))]
    rw [List.append_assoc]
    rfl

/-- C3 (amended): the round trip MakeAbsolute after Parameterize
reproduces a cleaned absolute path x lying strictly under a registered
directory path p, under these conditions: the reverse map has distinct
keys and maps p to the alias v; p and the remainder of x are built of
plain path elements; p occurs in x only as its leading prefix; no other
reverse-map path occurs in x or in the substituted string; the base path
is absolute; the forward map sends v back to p; and no remainder segment
is a forward-map keyword. -/
theorem c3_roundtrip_amended
    (rev kw : List (Str × Str)) (home : Option Str) (base : Str)
    (psegs rsegs : List Str) (v : Str)
    (hnd : (rev.map Prod.fst).Nodup)
    (hmem : ((sep :: joinSep psegs : Str), v) ∈ rev)
    (hps : psegs ≠ []) (hrs : rsegs ≠ [])
    (hgood : ∀ e ∈ psegs ++ rsegs, goodSeg e)
    (hv : goodSeg v)
    (honce : hasSub (sep :: joinSep rsegs) (sep :: joinSep psegs) = false)
    (hothers : ∀ e ∈ rev, e.1 ≠ sep :: joinSep psegs →
      hasSub (sep :: joinSep (psegs ++ rsegs)) e.1 = false ∧
      hasSub (v ++ sep :: joinSep rsegs) e.1 = false)
    (hbase : isAbs base = true)
    (hfwd : mapGet kw v = sep :: joinSep psegs)
    (hrest : ∀ e ∈ rsegs, mapGet kw e = []) :
    makeAbsolute kw home base (parameterize rev base (sep :: joinSep (psegs ++ rsegs))) =
      sep :: joinSep (psegs ++ rsegs) ∧
    clean (sep :: joinSep (psegs ++ rsegs)) = sep :: joinSep (psegs ++ rsegs) := by
  have hgp : ∀ e ∈ psegs, goodSeg e := fun e he => hgood e (List.mem_append_left _ he)
  have hgr : ∀ e ∈ rsegs, goodSeg e := fun e he => hgood e (List.mem_append_right _ he)
  have hcleanx : clean (sep :: joinSep (psegs ++ rsegs)) = sep :: joinSep (psegs ++ rsegs) :=
    clean_rooted_good _ hgood
  refine ⟨?_, hcleanx⟩
  have hxp : (sep :: joinSep (psegs ++ rsegs) : Str) =
      (sep :: joinSep psegs) ++ sep :: joinSep rsegs := by
    rw [joinSep_append psegs rsegs hps hrs]
    rfl
  have hrepl : replaceAll (sep :: joinSep (psegs ++ rsegs)) (sep :: joinSep psegs) v =
      v ++ sep :: joinSep rsegs := by
    rw [hxp, replaceAll_append_self _ _ _ (by simp)]
    rw [replaceAll_of_not_sub _ _ _ honce]
  have hcnt : (sortDesc (List.replicate rev.length ([], []) ++ rev)).count
      ((sep :: joinSep psegs : Str), v) = 1 := by
    rw [List.count_eq_countP]
    rw [(sortDesc_perm _).countP_eq]
    rw [← List.count_eq_countP]
    rw [List.count_append]
    have hz : (List.replicate rev.length (([] : Str), ([] : Str))).count
        ((sep :: joinSep psegs : Str), v) = 0 := by
      apply List.count_eq_zero_of_not_mem
      intro h
      have heq := List.eq_of_mem_replicate h
      exact List.noConfusion (congrArg Prod.fst heq)
    rw [hz, count_of_nodup_keys hnd hmem]
  have hfold : List.foldl (fun s o => replaceAll s o.1 o.2)
      (sep :: joinSep (psegs ++ rsegs))
      (sortDesc (List.replicate rev.length ([], []) ++ rev)) =
      v ++ sep :: joinSep rsegs := by
    apply foldl_replaceAll_once _ _ _ hrepl _ hcnt
    intro e he hne
    have hm : e ∈ List.replicate rev.length (([] : Str), ([] : Str)) ++ rev :=
      (sortDesc_perm _).mem_iff.mp he
    rcases List.mem_append.mp hm with hz | hr
    · have hze := List.eq_of_mem_replicate hz
      subst hze
      exact ⟨replaceAll_nil_nil _, replaceAll_nil_nil _⟩
    · have hkey : e.1 ≠ sep :: joinSep psegs := key_unique hnd hmem hr hne
      obtain ⟨h1, h2⟩ := hothers e hr hkey
      exact ⟨replaceAll_of_not_sub _ _ _ h1, replaceAll_of_not_sub _ _ _ h2⟩
  obtain ⟨vc, vrest, hveq⟩ : ∃ c cs, v = c :: cs := by
    cases v with
    | nil => exact absurd rfl hv.1
    | cons c cs => exact ⟨c, cs, rfl⟩
  have hvsep : vc ≠ sep := by
    intro h
    exact hv.2.2.2 (by rw [hveq, h]; exact List.mem_cons_self _ _)
  have hsabs : isAbs (v ++ sep :: joinSep rsegs) = false := by
    rw [hveq]
    simp [isAbs, hvsep]
  have hgvr : ∀ e ∈ v :: rsegs, goodSeg e := by
    intro e he
    rcases List.mem_cons.mp he with rfl | h
    · exact hv
    · exact hgr e h
  have hsj : v ++ sep :: joinSep rsegs = joinSep (v :: rsegs) := (joinSep_cons v rsegs hrs).symm
  have hcleans : clean (v ++ sep :: joinSep rsegs) = v ++ sep :: joinSep rsegs := by
    rw [hsj]
    exact clean_unrooted_good _ (by simp) hgvr
  have hlast : (v ++ sep :: joinSep rsegs).getLast? ≠ some sep := by
    rw [hsj]
    exact joinSep_getLast_not_sep _ (by simp) hgvr
  have hparam : parameterize rev base (sep :: joinSep (psegs ++ rsegs)) =
      v ++ sep :: joinSep rsegs := by
    simp only [parameterize]
    rw [hfold]
    rw [trimSep_noop _ hlast]
    rw [if_neg (by simp [hsabs])]
    rw [rel_none_of_abs_rel base _ hbase hsabs hcleans]
    exact hcleans
  rw [hparam]
  have hsplit2 : splitSep (v ++ sep :: joinSep rsegs) = v :: rsegs := by
    rw [hsj]
    exact splitSep_joinSep _ (by simp) (fun e he => (hgvr e he).2.2.2)
  simp only [makeAbsolute]
  rw [hsplit2]
  rw [List.foldl_cons]
  have hstep1 : (let s := mapGet kw v;
      if s ≠ [] then join2 [] s else join2 [] v) = sep :: joinSep psegs := by
    simp only [hfwd]
    rw [if_pos (by simp)]
    unfold join2
    rw [if_pos rfl, if_neg (by simp)]
    exact clean_rooted_good psegs hgp
  rw [hstep1]
  rw [makeAbs_fold kw rsegs psegs hgp (fun e he => ⟨hgr e he, hrest e he⟩)]
  rw [if_neg (by simp [hsabs])]
  have htilde : (str "~").isPrefixOf (sep :: joinSep (psegs ++ rsegs)) = false := by
    rw [show str "~" = ['~'] from rfl]
    simp [List.isPrefixOf]
    decide
  have hp0 : (if (str "~").isPrefixOf (sep :: joinSep (psegs ++ rsegs)) = true
      then (home.getD (str "~")) ++ (sep :: joinSep (psegs ++ rsegs)).drop 1
      else sep :: joinSep (psegs ++ rsegs)) = sep :: joinSep (psegs ++ rsegs) := by
    rw [htilde]
    simp
  simp only [absPath]
  rw [hp0]
  rw [if_pos (show isAbs (sep :: joinSep (psegs ++ rsegs)) = true from by simp [isAbs])]
  exact hcleanx

/-- C3 (counterexample): the registry registers only the directory "/a"
with reverse alias $A and forward keyword $A; the base is "/base" and the
input "/a/b/a" is a cleaned absolute path strictly under "/a", and no
other registered alias's path is a substring of it.  The round trip
nevertheless fails: the second occurrence of "/a" is also replaced, and
the result contains a literal "$A". -/
theorem c3_counterexample :
    makeAbsolute [(str "$A", str "/a")] none (str "/base")
        (parameterize [(str "/a", str "$A")] (str "/base") (str "/a/b/a")) =
      str "/a/b$A" ∧
    str "/a/b$A" ≠ clean (str "/a/b/a") := by
  exact ⟨by decide, by decide⟩

/-- Witness for the amended C3 on the registry of the counterexample and
the path "/a/b", where the registered path occurs only as the prefix. -/
theorem c3_witness :
    makeAbsolute [(str "$A", str "/a")] none (str "/base")
        (parameterize [(str "/a", str "$A")] (str "/base")
          (sep :: joinSep ([str "a"] ++ [str "b"]))) =
      sep :: joinSep ([str "a"] ++ [str "b"]) ∧
    clean (sep :: joinSep ([str "a"] ++ [str "b"])) = sep :: joinSep ([str "a"] ++ [str "b"]) :=
  c3_roundtrip_amended [(str "/a", str "$A")] [(str "$A", str "/a")] none (str "/base")
    [str "a"] [str "b"] (str "$A") (by decide) (by decide) (by decide) (by decide)
    (by decide) (by decide) (by decide) (by decide) (by decide) (by decide) (by decide)
